import Mathlib

/-!
# Verification of the domain-recon hostname pipeline

Shallow embedding of `src/cmd/main.go` (package `main` of the domain-recon
tool).  Go strings are modelled as `List Char`; the filesystem used by
`ioutil.ReadFile` is modelled as a function from paths to optional contents
(`none` models a read error).  Each Lean definition mirrors the Go function
of the same name.
-/

namespace DomainRecon

/-- Go `unicode.IsSpace`: the whitespace characters trimmed by
`strings.TrimSpace`. -/
def goIsSpace (c : Char) : Bool :=
  c == ' ' || c == '\t' || c == '\n' || c == '\u000B' || c == '\u000C' ||
  c == '\r' || c == '\u0085' || c == '\u00A0' || c == '\u1680' ||
  ('\u2000' ≤ c && c ≤ '\u200A') || c == '\u2028' || c == '\u2029' ||
  c == '\u202F' || c == '\u205F' || c == '\u3000'

/-- Go `strings.TrimSpace`: drop whitespace from both ends of the string. -/
def trimSpace (s : List Char) : List Char :=
  ((s.dropWhile goIsSpace).reverse.dropWhile goIsSpace).reverse

/-- Go `strings.Split(s, "\n")`: split on every newline character; the
result always has one more element than the number of newlines. -/
def splitLines : List Char → List (List Char)
  | [] => [[]]
  | c :: rest =>
    if c = '\n' then [] :: splitLines rest
    else
      match splitLines rest with
      | [] => [[c]]
      | h :: t => (c :: h) :: t

/-- Go `strings.HasPrefix(domain, "*")`: the string starts with a star. -/
def startsWithStar : List Char → Bool
  | [] => false
  | c :: _ => c == '*'

/-- Go `strings.Replace(domain, "*", word, 1)`: replace the first occurrence
of the star, if any, by `word`. -/
def replaceFirstStar : List Char → List Char → List Char
  | [], _ => []
  | c :: rest, word =>
    if c == '*' then word ++ rest else c :: replaceFirstStar rest word

/-- The `Certificate` struct of `main.go`: one row returned by crt.sh. -/
structure Certificate where
  issuerCaId : Int
  issuerName : List Char
  commonName : List Char
  nameValue : List Char
  id : Int
  entryTimestamp : List Char
  notBefore : List Char
  notAfter : List Char
  serialNumber : List Char
deriving DecidableEq

/-- The `Opts` struct of `main.go` (parsed command-line flags). -/
structure Opts where
  verbose : List Bool
  plain : Bool
  domain : List Char
  file : List Char
deriving DecidableEq

/-- The filesystem seen by `ioutil.ReadFile`: `none` models a read error
(missing or unreadable file). -/
abbrev FileSystem : Type := List Char → Option (List Char)

/-- Insertion of one key into the `uniqDomains` map of
`getResolvableDomains`, with the map represented by its list of keys. -/
def insertKey (m : List (List Char)) (k : List Char) : List (List Char) :=
  if k ∈ m then m else m ++ [k]

/-- Fold `insertKey` over a list of keys. -/
def insertAll (m : List (List Char)) (l : List (List Char)) : List (List Char) :=
  l.foldl insertKey m

/-- The raw strings one certificate contributes to `uniqDomains`: its
common name followed by every line of its name-value field. -/
def certValues (cert : Certificate) : List (List Char) :=
  cert.commonName :: splitLines cert.nameValue

/-- All raw strings contributed by a certificate list, in insertion order. -/
def rawValues (certificates : List Certificate) : List (List Char) :=
  certificates.flatMap certValues

/-- The body of the first loop of `getResolvableDomains`: insert one
certificate's common name and name-value lines into the map. -/
def insertCert (m : List (List Char)) (cert : Certificate) : List (List Char) :=
  insertAll (insertKey m cert.commonName) (splitLines cert.nameValue)

/-- The `uniqDomains` map of `getResolvableDomains`, as its list of keys in
insertion order (Go iterates map keys in unspecified order; membership and
duplicate-freeness are order-independent). -/
def uniqDomains (certificates : List Certificate) : List (List Char) :=
  certificates.foldl insertCert []

/-- Go `cleanDomainNames`: trim every string of the slice. -/
def cleanDomainNames (domains : List (List Char)) : List (List Char) :=
  domains.map trimSpace

/-- Go `partitionDomains`: split into (wildcard, non-wildcard) by
`strings.HasPrefix(domain, "*")`, keeping relative order. -/
def partitionDomains : List (List Char) → List (List Char) × List (List Char)
  | [] => ([], [])
  | domain :: rest =>
    let p := partitionDomains rest
    if startsWithStar domain then (domain :: p.1, p.2) else (p.1, domain :: p.2)

/-- The extraction stage of `getResolvableDomains`: deduplicate the raw
values, trim, and partition into (wildcard, concrete). -/
def extractDomains (certificates : List Certificate) :
    List (List Char) × List (List Char) :=
  partitionDomains (cleanDomainNames (uniqDomains certificates))

/-- Go `extendWildcardDomains`: read the word file, split it into lines,
trim each line, and substitute the first star of every wildcard by every
word.  First component: `none` models the `(nil, err)` return on a read
error.  Second component: the list of paths passed to `ioutil.ReadFile`
(the read happens before anything else, also on failure). -/
def extendWildcardDomains (fs : FileSystem) (domains : List (List Char))
    (wordsPath : List Char) : Option (List (List Char)) × List (List Char) :=
  match fs wordsPath with
  | none => (none, [wordsPath])
  | some content =>
    let words := (splitLines content).map trimSpace
    (some (domains.flatMap fun domain => words.map fun word =>
      replaceFirstStar domain word), [wordsPath])

/-- Go `computeDifference`: keep the potential domains that do not occur in
`domains`, preserving order and multiplicity. -/
def computeDifference (domains : List (List Char))
    (potentialDomains : List (List Char)) : List (List Char) :=
  potentialDomains.filter fun domain => !(domains.contains domain)

/-- The two slices returned by `getResolvableDomains`, together with the
trace of word-list files read along the way. -/
structure ExtractResult where
  domains : List (List Char)
  extended : List (List Char)
  readPaths : List (List Char)
deriving DecidableEq

/-- Go `getResolvableDomains`: extract and partition the certificate
hostnames; when a word-list path was supplied, extend the wildcards and
subtract the concrete names, swallowing any read error. -/
def getResolvableDomains (fs : FileSystem) (certificates : List Certificate)
    (opts : Opts) : ExtractResult :=
  let p := extractDomains certificates
  if 0 < opts.file.length then
    match extendWildcardDomains fs p.1 opts.file with
    | (some potentialDomains, reads) =>
      ⟨p.2, computeDifference p.2 potentialDomains, reads⟩
    | (none, reads) => ⟨p.2, [], reads⟩
  else
    ⟨p.2, [], []⟩

/-! ## Output model

`printReachableDomains` launches one `lookUpDns` goroutine per hostname and
prints, for each outcome received from the success channel, one line.  The
order in which outcomes arrive is nondeterministic, so the printing
functions below take the completion order (a permutation of the batch) as
an explicit argument. -/

/-- A DNS resolution oracle: `none` models a failed `net.LookupIP`,
`some ips` a successful one, with each IP rendered as text. -/
abbrev Resolver : Type := List Char → Option (List (List Char))

/-- Space-separated concatenation, as Go `fmt` renders slice elements. -/
def joinSpace : List (List Char) → List Char
  | [] => []
  | [x] => x
  | x :: rest => x ++ ' ' :: joinSpace rest

/-- Go `fmt` rendering of an `[]net.IP` value: `[ip1 ip2 ...]`. -/
def formatIPList (ips : List (List Char)) : List Char :=
  '[' :: (joinSpace ips ++ [']'])

/-- One line printed by the success branch of `printReachableDomains`:
the bare hostname when `plain`, otherwise the annotated form. -/
def renderResolved (plain : Bool) (domain : List Char)
    (ips : List (List Char)) : List Char :=
  if plain then domain else domain ++ (" - IPs: ".toList ++ formatIPList ips)

/-- Go `printReachableDomains`: the lines printed for one batch, given the
order in which lookups complete.  Failed lookups print nothing. -/
def printReachableDomains (resolve : Resolver) (order : List (List Char))
    (plain : Bool) : List (List Char) :=
  order.filterMap fun domain => (resolve domain).map (renderResolved plain domain)

/-- Go `printDomains`: print the concrete batch; when the extended list is
non-empty, print a blank line and the header (unless `plain`) and then the
extended batch.  `ord1` and `ord2` are the completion orders of the two
batches. -/
def printDomains (resolve : Resolver) (_domains extendedDomains : List (List Char))
    (plain : Bool) (ord1 ord2 : List (List Char)) : List (List Char) :=
  printReachableDomains resolve ord1 plain ++
    (if 0 < extendedDomains.length then
      (if plain then [] else [[], "Extended domains:".toList]) ++
        printReachableDomains resolve ord2 plain
    else [])

/-- Spec-side line for one successfully resolved hostname, following the
claim wording: in plain mode exactly the bare hostname, otherwise the
hostname annotated with the address list. -/
def specLine (plain : Bool) (domain : List Char)
    (ips : List (List Char)) : List Char :=
  if plain then domain else domain ++ (" - IPs: ".toList ++ formatIPList ips)

/-- Spec-side lines of one batch: one line per successful resolution, in
completion order, none for failures. -/
def specBatch (resolve : Resolver) (order : List (List Char))
    (plain : Bool) : List (List Char) :=
  order.filterMap fun domain => (resolve domain).map (specLine plain domain)

/-- Spec-side description of the whole output, following the claim wording:
first batch, then a blank line and the header `Extended domains:` if and
only if the extended list is non-empty and plain mode is off, then the
second batch whenever the extended list is non-empty. -/
def specPrintDomains (resolve : Resolver)
    (_domains extendedDomains : List (List Char)) (plain : Bool)
    (ord1 ord2 : List (List Char)) : List (List Char) :=
  specBatch resolve ord1 plain ++
    (if extendedDomains ≠ [] ∧ plain = false then
      [[], "Extended domains:".toList] else []) ++
    (if extendedDomains ≠ [] then specBatch resolve ord2 plain else [])

/-! ## Concurrency model of one resolution batch

`printReachableDomains` launches one `lookUpDns` goroutine per hostname;
each goroutine sends exactly one message, on the success channel or on the
error channel (both buffered to the batch size, so no send blocks).  The
consumer loop runs once per hostname, receiving one message from either
channel.  The small-step relation below models every interleaving of task
completions and receives. -/

/-- The single message a `lookUpDns` goroutine sends: the resolved result
on the success channel, or the bare hostname on the error channel. -/
inductive Outcome where
  | success : List Char → List (List Char) → Outcome
  | failure : List Char → Outcome
deriving DecidableEq

/-- Whether an outcome is a successful resolution. -/
def Outcome.isSuccess : Outcome → Bool
  | .success _ _ => true
  | .failure _ => false

/-- The outcome the goroutine for one hostname will send. -/
def taskOutcome (resolve : Resolver) (domain : List Char) : Outcome :=
  match resolve domain with
  | some ips => .success domain ips
  | none => .failure domain

/-- State of one resolution batch: outcomes of goroutines still running,
the two channel buffers, the outcomes already received by the consumer
loop, and the number of loop iterations left. -/
structure BatchState where
  pending : List Outcome
  chBuf : List Outcome
  errBuf : List Outcome
  consumed : List Outcome
  remaining : Nat
deriving DecidableEq

/-- Everything in flight or done: all outcomes of the batch, wherever they
currently sit. -/
def BatchState.bag (s : BatchState) : List Outcome :=
  s.consumed ++ s.pending ++ s.chBuf ++ s.errBuf

/-- One step of the batch: an arbitrary still-running goroutine finishes
and sends its message to the matching buffered channel, or the consumer
loop (while iterations remain) receives the head of a non-empty channel
buffer. -/
inductive BatchStep : BatchState → BatchState → Prop where
  | sendOk : ∀ (l1 l2 : List Outcome) (d : List Char) (ips : List (List Char))
      (ch err cons : List Outcome) (r : Nat),
      BatchStep ⟨l1 ++ Outcome.success d ips :: l2, ch, err, cons, r⟩
        ⟨l1 ++ l2, ch ++ [Outcome.success d ips], err, cons, r⟩
  | sendErr : ∀ (l1 l2 : List Outcome) (d : List Char)
      (ch err cons : List Outcome) (r : Nat),
      BatchStep ⟨l1 ++ Outcome.failure d :: l2, ch, err, cons, r⟩
        ⟨l1 ++ l2, ch, err ++ [Outcome.failure d], cons, r⟩
  | recvOk : ∀ (p : List Outcome) (o : Outcome) (ch err cons : List Outcome) (r : Nat),
      BatchStep ⟨p, o :: ch, err, cons, r + 1⟩ ⟨p, ch, err, cons ++ [o], r⟩
  | recvErr : ∀ (p : List Outcome) (o : Outcome) (ch err cons : List Outcome) (r : Nat),
      BatchStep ⟨p, ch, o :: err, cons, r + 1⟩ ⟨p, ch, err, cons ++ [o], r⟩

/-- Start of a batch: all goroutines launched, channels empty, and the
consumer loop set to run once per hostname. -/
def initBatch (resolve : Resolver) (domains : List (List Char)) : BatchState :=
  ⟨domains.map (taskOutcome resolve), [], [], [], domains.length⟩

/-! ## Basic lemmas about the extraction pipeline -/

lemma mem_insertKey {m : List (List Char)} {k x : List Char} :
    x ∈ insertKey m k ↔ x ∈ m ∨ x = k := by
  by_cases h : k ∈ m
  · simp only [insertKey, if_pos h]
    constructor
    · exact Or.inl
    · rintro (hx | rfl)
      · exact hx
      · exact h
  · simp [insertKey, if_neg h]

lemma nodup_insertKey {m : List (List Char)} {k : List Char} (h : m.Nodup) :
    (insertKey m k).Nodup := by
  by_cases hk : k ∈ m
  · simpa [insertKey, hk] using h
  · simp [insertKey, hk, List.nodup_append, h, List.disjoint_singleton]

lemma mem_insertAll : ∀ (l m : List (List Char)) (x : List Char),
    x ∈ insertAll m l ↔ x ∈ m ∨ x ∈ l := by
  intro l
  induction l with
  | nil => intro m x; simp [insertAll]
  | cons a l ih =>
    intro m x
    have hstep : insertAll m (a :: l) = insertAll (insertKey m a) l := rfl
    rw [hstep, ih, mem_insertKey]
    simp [List.mem_cons]
    tauto

lemma nodup_insertAll : ∀ (l m : List (List Char)), m.Nodup → (insertAll m l).Nodup := by
  intro l
  induction l with
  | nil => intro m h; simpa [insertAll] using h
  | cons a l ih => intro m h; exact ih _ (nodup_insertKey h)

lemma mem_insertCert {m : List (List Char)} {cert : Certificate} {x : List Char} :
    x ∈ insertCert m cert ↔ x ∈ m ∨ x ∈ certValues cert := by
  rw [insertCert, mem_insertAll, mem_insertKey, certValues]
  simp [List.mem_cons]
  tauto

lemma nodup_insertCert {m : List (List Char)} {cert : Certificate} (h : m.Nodup) :
    (insertCert m cert).Nodup :=
  nodup_insertAll _ _ (nodup_insertKey h)

lemma mem_foldl_insertCert : ∀ (certs : List Certificate) (m : List (List Char)) (x : List Char),
    x ∈ certs.foldl insertCert m ↔ x ∈ m ∨ x ∈ rawValues certs := by
  intro certs
  induction certs with
  | nil => intro m x; simp [rawValues]
  | cons c cs ih =>
    intro m x
    rw [List.foldl_cons, ih, mem_insertCert]
    simp [rawValues, List.flatMap_cons]
    tauto

lemma nodup_foldl_insertCert : ∀ (certs : List Certificate) (m : List (List Char)),
    m.Nodup → (certs.foldl insertCert m).Nodup := by
  intro certs
  induction certs with
  | nil => intro m h; simpa using h
  | cons c cs ih => intro m h; exact ih _ (nodup_insertCert h)

lemma mem_uniqDomains {certs : List Certificate} {x : List Char} :
    x ∈ uniqDomains certs ↔ x ∈ rawValues certs := by
  rw [uniqDomains, mem_foldl_insertCert]
  simp

lemma nodup_uniqDomains (certs : List Certificate) : (uniqDomains certs).Nodup :=
  nodup_foldl_insertCert certs [] List.nodup_nil

lemma partitionDomains_eq (l : List (List Char)) :
    partitionDomains l =
      (l.filter startsWithStar, l.filter fun d => !startsWithStar d) := by
  induction l with
  | nil => rfl
  | cons d rest ih =>
    by_cases h : startsWithStar d <;>
      simp [partitionDomains, ih, h, List.filter_cons]

lemma splitLines_ne_nil (l : List Char) : splitLines l ≠ [] := by
  cases l with
  | nil => simp [splitLines]
  | cons c rest =>
    by_cases h : c = '\n'
    · simp [splitLines, h]
    · cases h2 : splitLines rest <;> simp [splitLines, h, h2]

lemma splitLines_append_newline (l : List Char) :
    splitLines (l ++ ['\n']) = splitLines l ++ [[]] := by
  induction l with
  | nil => rfl
  | cons c rest ih =>
    by_cases h : c = '\n'
    · subst h
      simp [splitLines, ih]
    · obtain ⟨hh, tt, heq⟩ := List.exists_cons_of_ne_nil (splitLines_ne_nil rest)
      simp [splitLines, h, ih, heq]

lemma replaceFirstStar_cons_star (rest word : List Char) :
    replaceFirstStar ('*' :: rest) word = word ++ rest := by
  simp [replaceFirstStar]

lemma replaceFirstStar_of_first (pre suf word : List Char) (h : '*' ∉ pre) :
    replaceFirstStar (pre ++ '*' :: suf) word = pre ++ (word ++ suf) := by
  induction pre with
  | nil => simp [replaceFirstStar]
  | cons c cs ih =>
    have hc : ¬(c == '*') = true := by
      simp only [beq_iff_eq]
      intro hc
      exact h (hc ▸ List.mem_cons_self c cs)
    have hcs : '*' ∉ cs := fun hx => h (List.mem_cons_of_mem c hx)
    simp [replaceFirstStar, hc, ih hcs]

lemma replaceFirstStar_of_no_star (d word : List Char) (h : '*' ∉ d) :
    replaceFirstStar d word = d := by
  induction d with
  | nil => rfl
  | cons c cs ih =>
    have hc : ¬(c == '*') = true := by
      simp only [beq_iff_eq]
      intro hc
      exact h (hc ▸ List.mem_cons_self c cs)
    have hcs : '*' ∉ cs := fun hx => h (List.mem_cons_of_mem c hx)
    simp [replaceFirstStar, hc, ih hcs]

lemma extendWildcardDomains_readPaths (fs : FileSystem) (domains : List (List Char))
    (wordsPath : List Char) :
    (extendWildcardDomains fs domains wordsPath).2 = [wordsPath] := by
  unfold extendWildcardDomains
  cases fs wordsPath <;> rfl

lemma getResolvableDomains_domains (fs : FileSystem) (certs : List Certificate)
    (opts : Opts) :
    (getResolvableDomains fs certs opts).domains = (extractDomains certs).2 := by
  unfold getResolvableDomains
  by_cases h : 0 < opts.file.length
  · simp only [if_pos h]
    rcases hfs : extendWildcardDomains fs (extractDomains certs).1 opts.file with ⟨o, r⟩
    cases o <;> simp [hfs]
  · simp [if_neg h]

lemma getResolvableDomains_readPaths (fs : FileSystem) (certs : List Certificate)
    (opts : Opts) :
    (getResolvableDomains fs certs opts).readPaths =
      if 0 < opts.file.length then [opts.file] else [] := by
  unfold getResolvableDomains
  by_cases h : 0 < opts.file.length
  · simp only [if_pos h]
    rcases hfs : extendWildcardDomains fs (extractDomains certs).1 opts.file with ⟨o, r⟩
    have hr := extendWildcardDomains_readPaths fs (extractDomains certs).1 opts.file
    rw [hfs] at hr
    simp only at hr
    cases o <;> simp [hfs, hr]
  · simp [if_neg h]

/-! ## Invariants of the batch step relation -/

lemma BatchStep.bag_perm {s t : BatchState} (h : BatchStep s t) :
    t.bag.Perm s.bag := by
  cases h with
  | sendOk l1 l2 d ips ch err cons r =>
    rw [List.perm_iff_count]
    intro x
    simp only [BatchState.bag, List.count_append, List.count_cons, List.count_nil]
    omega
  | sendErr l1 l2 d ch err cons r =>
    rw [List.perm_iff_count]
    intro x
    simp only [BatchState.bag, List.count_append, List.count_cons, List.count_nil]
    omega
  | recvOk p o ch err cons r =>
    rw [List.perm_iff_count]
    intro x
    simp only [BatchState.bag, List.count_append, List.count_cons, List.count_nil]
    omega
  | recvErr p o ch err cons r =>
    rw [List.perm_iff_count]
    intro x
    simp only [BatchState.bag, List.count_append, List.count_cons, List.count_nil]
    omega

lemma BatchStep.consumed_remaining {s t : BatchState} (h : BatchStep s t) :
    t.consumed.length + t.remaining = s.consumed.length + s.remaining := by
  cases h <;> simp <;> omega

lemma reachable_invariant {s0 s : BatchState}
    (h : Relation.ReflTransGen BatchStep s0 s) :
    s.bag.Perm s0.bag ∧
      s.consumed.length + s.remaining = s0.consumed.length + s0.remaining := by
  induction h with
  | refl => exact ⟨List.Perm.refl _, rfl⟩
  | tail _ step ih =>
    exact ⟨(BatchStep.bag_perm step).trans ih.1,
      (BatchStep.consumed_remaining step).trans ih.2⟩

/-! ## Claim theorems -/

/-- C1 (counterexample): the combined output of extraction is NOT always
duplicate-free.  Deduplication happens on the raw strings before trimming,
so a certificate whose common name is `a` and whose name-value field is
`a ` (with a trailing blank) yields the concrete list `[a, a]`. -/
theorem extraction_nodup_counterexample :
    ¬ (((extractDomains [⟨0, [], ['a'], ['a', ' '], 0, [], [], [], []⟩]).1 ++
        (extractDomains [⟨0, [], ['a'], ['a', ' '], 0, [], [], [], []⟩]).2).Nodup) := by
  decide

/-- C1 (amended): the combined output of extraction (wildcards together
with concretes) is, up to order, exactly the image under trimming of the
set of distinct raw values; that set collects every common name and every
name-value line, deduplicated by exact string equality BEFORE trimming.
In particular every distinct trimmed value occurs in the output, but two
raw values that differ only in surrounding whitespace yield a duplicate. -/
theorem extraction_trimmed_dedup_raw (certs : List Certificate) :
    ((extractDomains certs).1 ++ (extractDomains certs).2).Perm
      ((uniqDomains certs).map trimSpace)
    ∧ (uniqDomains certs).Nodup
    ∧ ∀ r : List Char, r ∈ uniqDomains certs ↔ r ∈ rawValues certs := by
  refine ⟨?_, nodup_uniqDomains certs, fun r => mem_uniqDomains⟩
  rw [extractDomains, partitionDomains_eq]
  simpa [cleanDomainNames] using
    List.filter_append_perm startsWithStar (cleanDomainNames (uniqDomains certs))

/-- C2: when the word file is readable, expansion trims every line of the
file to obtain the words and returns one candidate per (wildcard, word)
pair, namely the wildcard with its first star occurrence replaced by the
word; the raw candidate list has exactly `|wildcards| * |words|` elements. -/
theorem wildcard_expansion_product (fs : FileSystem) (domains : List (List Char))
    (path content : List Char) (h : fs path = some content) :
    (extendWildcardDomains fs domains path).1 =
      some (domains.flatMap fun d =>
        ((splitLines content).map trimSpace).map fun w => replaceFirstStar d w)
    ∧ (domains.flatMap fun d =>
        ((splitLines content).map trimSpace).map fun w => replaceFirstStar d w).length
      = domains.length * ((splitLines content).map trimSpace).length := by
  constructor
  · simp [extendWildcardDomains, h]
  · induction domains with
    | nil => simp
    | cons d ds ih =>
      simp only [List.flatMap_cons, List.length_append, List.length_map,
        List.length_cons, ih]
      ring

/-- Witness for C2 at a one-wildcard, two-word instance. -/
theorem wildcard_expansion_product_witness :
    ((fun _ => some ['a', '\n'] : FileSystem) ['w'] = some ['a', '\n'])
    ∧ ((extendWildcardDomains (fun _ => some ['a', '\n']) [['*', 'x']] ['w']).1 =
        some ([['*', 'x']].flatMap fun d =>
          ((splitLines ['a', '\n']).map trimSpace).map fun w => replaceFirstStar d w)
      ∧ ([['*', 'x']].flatMap fun d =>
          ((splitLines ['a', '\n']).map trimSpace).map fun w => replaceFirstStar d w).length
        = [['*', 'x']].length * ((splitLines ['a', '\n']).map trimSpace).length) :=
  ⟨rfl, wildcard_expansion_product _ _ _ _ rfl⟩

/-- C3: filtering keeps a candidate exactly when it is not equal to any
concrete hostname; the survivors form a sublist (order and multiplicity
preserved), and duplicate candidates are NOT collapsed, as the concrete
instance shows. -/
theorem difference_keeps_non_concrete (domains potential : List (List Char)) :
    computeDifference domains potential =
      potential.filter (fun d => decide (d ∉ domains))
    ∧ (computeDifference domains potential).Sublist potential
    ∧ computeDifference [] [['a'], ['a']] = [['a'], ['a']] := by
  refine ⟨?_, List.filter_sublist _, by decide⟩
  unfold computeDifference
  apply List.filter_congr
  intro d _
  simp

/-- C4: when a word-list path is supplied but reading it fails, the
extended output is empty, the concrete output is exactly what it would
have been with no word list, and the pipeline still returns normally (the
read error is swallowed: `getResolvableDomains` is total). -/
theorem wordlist_read_failure_swallowed (fs : FileSystem)
    (certs : List Certificate) (opts : Opts)
    (hfile : 0 < opts.file.length) (hread : fs opts.file = none) :
    (getResolvableDomains fs certs opts).extended = []
    ∧ (getResolvableDomains fs certs opts).domains =
        (getResolvableDomains fs certs
          ⟨opts.verbose, opts.plain, opts.domain, []⟩).domains := by
  constructor
  · unfold getResolvableDomains
    simp only [if_pos hfile]
    simp [extendWildcardDomains, hread]
  · rw [getResolvableDomains_domains, getResolvableDomains_domains]

/-- Witness for C4: missing word file, one flagged path, no certificates. -/
theorem wordlist_read_failure_swallowed_witness :
    0 < (⟨[], false, ['d'], ['w']⟩ : Opts).file.length
    ∧ ((fun _ => none : FileSystem) (⟨[], false, ['d'], ['w']⟩ : Opts).file = none)
    ∧ ((getResolvableDomains (fun _ => none) [] ⟨[], false, ['d'], ['w']⟩).extended = []
      ∧ (getResolvableDomains (fun _ => none) [] ⟨[], false, ['d'], ['w']⟩).domains =
          (getResolvableDomains (fun _ => none) [] ⟨[], false, ['d'], []⟩).domains) :=
  ⟨by decide, rfl, wordlist_read_failure_swallowed _ _ _ (by decide) rfl⟩

/-- C5 (counterexample): with zero certificate records and a word-list
path supplied, the word-list file IS consulted: `extendWildcardDomains`
is still called and passes the path to `ioutil.ReadFile`, so the read
trace is non-empty, contradicting the claim that the file is not
consulted. -/
theorem empty_certificates_reads_wordlist_counterexample :
    (getResolvableDomains (fun _ => none) []
      (⟨[], false, ['d'], ['w']⟩ : Opts)).readPaths = [['w']] := by
  rfl

/-- C5 (amended): with zero certificate records, extraction yields two
empty lists and both outputs are empty; however, when a word-list path is
supplied the file is still read (expansion is invoked on the empty
wildcard list and produces no candidates). -/
theorem empty_certificates_extraction (fs : FileSystem) (opts : Opts) :
    (getResolvableDomains fs [] opts).domains = []
    ∧ (getResolvableDomains fs [] opts).extended = []
    ∧ extractDomains [] = ([], [])
    ∧ (getResolvableDomains fs [] opts).readPaths =
        (if 0 < opts.file.length then [opts.file] else []) := by
  refine ⟨?_, ?_, rfl, getResolvableDomains_readPaths fs [] opts⟩
  · rw [getResolvableDomains_domains]
    rfl
  · by_cases h : 0 < opts.file.length
    · cases hfs : fs opts.file with
      | none => simp [getResolvableDomains, extendWildcardDomains, h, hfs]
      | some content =>
        simp [getResolvableDomains, extendWildcardDomains, h, hfs,
          extractDomains, uniqDomains, cleanDomainNames, partitionDomains,
          computeDifference]
    · simp [getResolvableDomains, h]

/-- C6: partitioning is exhaustive and disjoint: a hostname of the input
is in the wildcard part exactly when its first character is a star, in
the concrete part exactly otherwise, and never in both. -/
theorem partition_exhaustive_disjoint (ds : List (List Char)) (d : List Char)
    (hd : d ∈ ds) :
    (d ∈ (partitionDomains ds).1 ↔ startsWithStar d = true)
    ∧ (d ∈ (partitionDomains ds).2 ↔ startsWithStar d = false)
    ∧ ¬(d ∈ (partitionDomains ds).1 ∧ d ∈ (partitionDomains ds).2) := by
  rw [partitionDomains_eq]
  cases hs : startsWithStar d <;> simp [List.mem_filter, hd, hs]

/-- Witness for C6 on the set containing one wildcard and one concrete. -/
theorem partition_exhaustive_disjoint_witness :
    (['*', 'a'] ∈ ([['*', 'a'], ['b']] : List (List Char)))
    ∧ ((['*', 'a'] ∈ (partitionDomains [['*', 'a'], ['b']]).1 ↔
          startsWithStar ['*', 'a'] = true)
      ∧ (['*', 'a'] ∈ (partitionDomains [['*', 'a'], ['b']]).2 ↔
          startsWithStar ['*', 'a'] = false)
      ∧ ¬(['*', 'a'] ∈ (partitionDomains [['*', 'a'], ['b']]).1 ∧
          ['*', 'a'] ∈ (partitionDomains [['*', 'a'], ['b']]).2)) :=
  ⟨by decide, partition_exhaustive_disjoint _ _ (by decide)⟩

/-- C7: when the word file ends with a newline, the parsed word list ends
with the empty word (empty words are not filtered), so for every wildcard
of the form `*rest` the candidate list contains `rest`, the wildcard with
its leading star replaced by the empty string. -/
theorem trailing_newline_empty_word (fs : FileSystem) (path body : List Char)
    (domains : List (List Char)) (rest : List Char)
    (hfs : fs path = some (body ++ ['\n'])) (hd : ('*' :: rest) ∈ domains) :
    ((splitLines (body ++ ['\n'])).map trimSpace).getLast? = some []
    ∧ rest ∈ ((extendWildcardDomains fs domains path).1.getD []) := by
  have hsplit := splitLines_append_newline body
  have ht : List.map trimSpace [[]] = [[]] := rfl
  constructor
  · rw [hsplit, List.map_append, ht]
    exact List.getLast?_concat _
  · simp only [extendWildcardDomains, hfs, Option.getD_some]
    refine List.mem_flatMap.mpr ⟨'*' :: rest, hd, ?_⟩
    have hw : ([] : List Char) ∈ (splitLines (body ++ ['\n'])).map trimSpace := by
      rw [hsplit, List.map_append, ht]
      exact List.mem_append_right _ (List.mem_singleton.mpr rfl)
    exact List.mem_map.mpr ⟨[], hw, rfl⟩

/-- Witness for C7: file `w\n`, wildcard `*a`; the candidate `a` appears. -/
theorem trailing_newline_empty_word_witness :
    ((fun _ => some ['w', '\n'] : FileSystem) ['p'] = some (['w'] ++ ['\n']))
    ∧ ('*' :: ['a']) ∈ ([['*', 'a']] : List (List Char))
    ∧ (((splitLines (['w'] ++ ['\n'])).map trimSpace).getLast? = some []
      ∧ ['a'] ∈ ((extendWildcardDomains (fun _ => some ['w', '\n'])
          [['*', 'a']] ['p']).1.getD [])) :=
  ⟨rfl, by decide, trailing_newline_empty_word _ _ _ _ _ rfl (by decide)⟩

/-- C8: the printed output refines the spec-side description: in plain
mode each successfully resolved hostname is printed as exactly the bare
hostname, otherwise as the hostname annotated with its address list, and
a blank line followed by the header `Extended domains:` precedes the
second batch if and only if the extended list is non-empty and plain mode
is off (the header is suppressed in plain mode even when the extended
list is non-empty, while the second batch itself is still printed).
`ord1` and `ord2` range over the completion orders of the two batches. -/
theorem printDomains_eq_spec (resolve : Resolver)
    (domains extendedDomains : List (List Char)) (plain : Bool)
    (ord1 ord2 : List (List Char)) :
    printDomains resolve domains extendedDomains plain ord1 ord2 =
      specPrintDomains resolve domains extendedDomains plain ord1 ord2 := by
  have hrs : renderResolved = specLine := rfl
  cases plain <;> cases extendedDomains <;>
    simp [printDomains, specPrintDomains, printReachableDomains, specBatch, hrs]

/-- C9: in any complete run of a resolution batch (all consumer loop
iterations executed), whatever the interleaving of task completions and
channel receives, the consumed outcomes are a permutation of the one
outcome per launched task, nothing is left in flight, and the number of
printed lines (one per consumed success, none per failure) equals the
number of successfully resolving hostnames. -/
theorem batch_drains_all_outcomes (resolve : Resolver)
    (domains : List (List Char)) (s : BatchState)
    (h : Relation.ReflTransGen BatchStep (initBatch resolve domains) s)
    (hdone : s.remaining = 0) :
    s.consumed.Perm (domains.map (taskOutcome resolve))
    ∧ s.pending = [] ∧ s.chBuf = [] ∧ s.errBuf = []
    ∧ s.consumed.countP Outcome.isSuccess =
        domains.countP fun d => (resolve d).isSome := by
  obtain ⟨hperm, hlen⟩ := reachable_invariant h
  have hbag0 : (initBatch resolve domains).bag = domains.map (taskOutcome resolve) := by
    simp [initBatch, BatchState.bag]
  rw [hbag0] at hperm
  have hclen : s.consumed.length = domains.length := by
    simp only [initBatch, List.length_nil] at hlen
    omega
  have hbaglen : s.bag.length = domains.length := by
    rw [hperm.length_eq, List.length_map]
  have hsum : s.consumed.length + s.pending.length + s.chBuf.length +
      s.errBuf.length = domains.length := by
    simp only [BatchState.bag, List.length_append] at hbaglen
    omega
  have hp : s.pending = [] := List.length_eq_zero.mp (by omega)
  have hc : s.chBuf = [] := List.length_eq_zero.mp (by omega)
  have he : s.errBuf = [] := List.length_eq_zero.mp (by omega)
  have hbag_eq : s.bag = s.consumed := by
    simp [BatchState.bag, hp, hc, he]
  rw [hbag_eq] at hperm
  refine ⟨hperm, hp, hc, he, ?_⟩
  rw [hperm.countP_eq Outcome.isSuccess, List.countP_map]
  apply List.countP_congr
  intro d _
  cases hr : resolve d <;>
    simp [Function.comp, taskOutcome, Outcome.isSuccess, hr]

/-- Witness for C9: a one-hostname batch whose lookup fails, run to
completion through one send and one receive. -/
theorem batch_drains_all_outcomes_witness :
    Relation.ReflTransGen BatchStep (initBatch (fun _ => none) [['a']])
      ⟨[], [], [], [Outcome.failure ['a']], 0⟩
    ∧ (⟨[], [], [], [Outcome.failure ['a']], 0⟩ : BatchState).remaining = 0
    ∧ (([Outcome.failure ['a']] : List Outcome).Perm
        ([['a']].map (taskOutcome (fun _ => none)))
      ∧ ([] : List Outcome) = [] ∧ ([] : List Outcome) = []
      ∧ ([] : List Outcome) = []
      ∧ ([Outcome.failure ['a']] : List Outcome).countP Outcome.isSuccess =
          [['a']].countP fun d => ((fun _ => none : Resolver) d).isSome) := by
  have step1 : BatchStep (initBatch (fun _ => none) [['a']])
      ⟨[], [], [Outcome.failure ['a']], [], 1⟩ :=
    BatchStep.sendErr [] [] ['a'] [] [] [] 1
  have step2 : BatchStep ⟨[], [], [Outcome.failure ['a']], [], 1⟩
      ⟨[], [], [], [Outcome.failure ['a']], 0⟩ :=
    BatchStep.recvErr [] (Outcome.failure ['a']) [] [] [] 0
  have hreach := Relation.ReflTransGen.head step1
    (Relation.ReflTransGen.head step2 Relation.ReflTransGen.refl)
  exact ⟨hreach, rfl, batch_drains_all_outcomes (fun _ => none) [['a']] _ hreach rfl⟩

/-- C10: a certificate with an empty common name (or an empty line in its
name-value field) puts the empty string into the concrete output list:
empty strings are never filtered, and lacking a leading star they are
classified as concrete and handed to the resolution batch. -/
theorem empty_string_reaches_concrete (fs : FileSystem) (opts : Opts)
    (certs : List Certificate) (cert : Certificate) (hc : cert ∈ certs)
    (hempty : cert.commonName = [] ∨ [] ∈ splitLines cert.nameValue) :
    [] ∈ (getResolvableDomains fs certs opts).domains := by
  rw [getResolvableDomains_domains, extractDomains, partitionDomains_eq]
  have hraw : ([] : List Char) ∈ rawValues certs := by
    rw [rawValues, List.mem_flatMap]
    refine ⟨cert, hc, ?_⟩
    rw [certValues]
    rcases hempty with h | h
    · rw [← h]
      exact List.mem_cons_self _ _
    · exact List.mem_cons_of_mem _ h
  have hclean : ([] : List Char) ∈ cleanDomainNames (uniqDomains certs) := by
    rw [cleanDomainNames]
    exact List.mem_map.mpr ⟨[], mem_uniqDomains.mpr hraw, rfl⟩
  exact List.mem_filter.mpr ⟨hclean, rfl⟩

/-- Witness for C10: one certificate whose fields are all empty. -/
theorem empty_string_reaches_concrete_witness :
    ((⟨0, [], [], [], 0, [], [], [], []⟩ : Certificate) ∈
        ([⟨0, [], [], [], 0, [], [], [], []⟩] : List Certificate))
    ∧ ((⟨0, [], [], [], 0, [], [], [], []⟩ : Certificate).commonName = []
        ∨ [] ∈ splitLines (⟨0, [], [], [], 0, [], [], [], []⟩ : Certificate).nameValue)
    ∧ [] ∈ (getResolvableDomains (fun _ => none)
        [⟨0, [], [], [], 0, [], [], [], []⟩] ⟨[], false, [], []⟩).domains :=
  ⟨List.mem_cons_self _ _, Or.inl rfl,
    empty_string_reaches_concrete _ _ _ _ (List.mem_cons_self _ _) (Or.inl rfl)⟩

end DomainRecon
